import Mathlib

/-!
Verification development for the maro actor / policy-manager coordination core
(`src/maro/rl/training/policy_manager.py` and
`src/maro/rl/learning/asynchronous/actor.py`).

The Python code is shallowly embedded: dictionaries become association lists or
lookup functions over `String` keys, Python `int` counters become `Nat` (all
values arising in this core are non-negative) except the actor's `num_steps`
budget, which is an `Int` because `-1` is meaningful, and raised exceptions
become `Except` error results.
-/

namespace Maro

/-- Errors raised by the policy manager: a Python `KeyError` on an unknown
policy id, or a `ValueError` raised during construction. -/
inductive PMError
  | keyError (policy_id : String)
  | valueError (msg : String)
deriving DecidableEq, Repr

/-- Modelled from the spec: `ExperienceSet` lives in `maro.rl.experience`, which
is outside the excerpted core. The spec's ExperienceBatch carries an ordered
sequence of records and a `size` (count of records); only `size` is consumed by
the policy manager, so the batch is embedded as its record count. -/
structure ExperienceSet where
  size : Nat
deriving DecidableEq, Repr

/-- `PolicyUpdateTrigger` from `policy_manager.py` (a namedtuple with fields
`min_new_experiences` and `num_warmup_experiences`, the latter defaulting
to 1). -/
structure PolicyUpdateTrigger where
  min_new_experiences : Nat
  num_warmup_experiences : Nat := 1
deriving DecidableEq, Repr

/-- A policy as seen by the policy manager. The Python code duck-types: a
policy is "updatable" when it has both an `experience_memory` attribute and an
`update` method; that capability is embedded as two Boolean flags. The
experience memory itself and the policy's own `update()` routine live outside
the excerpted core, so only the observables the manager reads are kept:
the buffered record count `experience_memory.size` and (modelled from the spec:
the policy's update routine is opaque to the manager, the spec only requires
that the update runs) a counter of how many times `update()` has run. -/
structure Policy where
  has_experience_memory : Bool
  has_update : Bool
  experience_memory_size : Nat
  update_count : Nat
deriving DecidableEq, Repr

/-- Modelled from the spec: `experience_memory.put` is outside the excerpted
core; the spec requires batches to be "additive (concatenated / accumulated),
never overwritten", so `put` adds the batch's record count to the buffer. -/
def memoryPut (p : Policy) (exp : ExperienceSet) : Policy :=
  { p with experience_memory_size := p.experience_memory_size + exp.size }

/-- Modelled from the spec: the policy's own `update()` routine is opaque to
the manager; only the fact that the update ran is recorded. -/
def runPolicyUpdate (p : Policy) : Policy :=
  { p with update_count := p.update_count + 1 }

/-- First-match association-list lookup, embedding Python dict lookup for
dictionaries built from distinct keys. -/
def lookupA {β : Type} (k : String) : List (String × β) → Option β
  | [] => none
  | (a, b) :: rest => if a = k then some b else lookupA k rest

/-- The state of a `LocalPolicyManager`: the insertion-ordered key list of
`policy_dict`, the dictionaries `policy_dict` and `_update_trigger` as lookup
functions, the `defaultdict(int)` `_new_exp_counter` as a total function, and
the set `_updated_policy_ids` as a duplicate-free list. -/
structure LocalPolicyManager where
  names : List String
  policy_dict : String → Option Policy
  update_trigger : String → Option PolicyUpdateTrigger
  new_exp_counter : String → Nat
  updated_policy_ids : List String

/-- The `update_trigger` constructor argument: `None`, a single
`PolicyUpdateTrigger`, or a policy-keyed dictionary of triggers. -/
inductive UpdateTriggerArg
  | unset
  | single (t : PolicyUpdateTrigger)
  | dict (d : List (String × PolicyUpdateTrigger))

/-- Whether the policy registered under `k` in `policy_dict` is updatable
(has both the `experience_memory` attribute and the `update` method). -/
def isUpdatable (policy_dict : List (String × Policy)) (k : String) : Bool :=
  match lookupA k policy_dict with
  | some p => p.has_experience_memory && p.has_update
  | none => false

/-- Helper assembling the manager record fields set by `__init__` once
validation has passed. -/
def mkManager (policy_dict : List (String × Policy))
    (trig : String → Option PolicyUpdateTrigger) : LocalPolicyManager :=
  { names := policy_dict.map Prod.fst
    policy_dict := fun k => lookupA k policy_dict
    update_trigger := trig
    new_exp_counter := fun _ => 0
    updated_policy_ids := [] }

/-- `LocalPolicyManager.__init__`: if `update_trigger` is a dict whose key set
is not a subset of the policy ids, raise `ValueError`; otherwise build the
manager. With `update_trigger = None` every updatable policy gets the default
trigger `(min_new_experiences := 1, num_warmup_experiences := 1)`; with a
single trigger every updatable policy gets that trigger; with a dict the dict
itself is the trigger table. -/
def initLocalPolicyManager (policy_dict : List (String × Policy))
    (update_trigger : UpdateTriggerArg) : Except PMError LocalPolicyManager :=
  match update_trigger with
  | .dict d =>
      if d.all (fun e => (policy_dict.map Prod.fst).contains e.fst) then
        .ok (mkManager policy_dict (fun k => lookupA k d))
      else
        .error (.valueError "The keys for update_trigger must be a subset of the policy ids")
  | .unset =>
      .ok (mkManager policy_dict
        (fun k => if isUpdatable policy_dict k then
          some { min_new_experiences := 1, num_warmup_experiences := 1 } else none))
  | .single t =>
      .ok (mkManager policy_dict
        (fun k => if isUpdatable policy_dict k then some t else none))

/-- The first loop of `on_experiences`: for each `(policy_id, exp)` entry of
the incoming mapping (in insertion order), look the policy up in `policy_dict`
(raising `KeyError` on an unknown id), and if it has an `experience_memory`,
add `exp.size` to its `_new_exp_counter` entry and `put` the batch into its
memory. -/
def storeLoop (st : LocalPolicyManager) :
    List (String × ExperienceSet) → Except PMError LocalPolicyManager
  | [] => .ok st
  | (policy_id, exp) :: rest =>
    match st.policy_dict policy_id with
    | none => .error (.keyError policy_id)
    | some p =>
      if p.has_experience_memory then
        storeLoop
          { st with
            new_exp_counter := fun k =>
              if k = policy_id then st.new_exp_counter policy_id + exp.size
              else st.new_exp_counter k
            policy_dict := fun k =>
              if k = policy_id then some (memoryPut p exp) else st.policy_dict k }
          rest
      else
        storeLoop st rest

/-- The keys of `_updatable_policy_dict`, in `policy_dict` insertion order.
The source computes this dictionary once in `__init__`; since the key set of
`policy_dict` and the two capability attributes never change afterwards,
recomputing it from the current state is equivalent. -/
def updatablePolicyIds (st : LocalPolicyManager) : List String :=
  st.names.filter (fun policy_id =>
    match st.policy_dict policy_id with
    | some p => p.has_experience_memory && p.has_update
    | none => false)

/-- The update condition of the second loop of `on_experiences`:
`policy_id not in self._update_trigger or (memory size >= num_warmup and
new-exp counter >= min_new)` (Python `and` binds tighter than `or`). -/
def triggerCond (st : LocalPolicyManager) (policy_id : String) (p : Policy) : Bool :=
  match st.update_trigger policy_id with
  | none => true
  | some t =>
      decide (t.num_warmup_experiences ≤ p.experience_memory_size) &&
      decide (t.min_new_experiences ≤ st.new_exp_counter policy_id)

/-- Insertion into the `_updated_policy_ids` set (`set.add`), keeping the
duplicate-free list representation. -/
def insertSet (policy_id : String) (s : List String) : List String :=
  if policy_id ∈ s then s else s ++ [policy_id]

/-- One iteration of the second loop of `on_experiences` for one updatable
policy: if the update condition holds, run `policy.update()`, reset the
policy's `_new_exp_counter` entry to 0 and add it to `_updated_policy_ids`. -/
def updateStep (st : LocalPolicyManager) (policy_id : String) : LocalPolicyManager :=
  match st.policy_dict policy_id with
  | none => st
  | some p =>
    if triggerCond st policy_id p then
      { st with
        policy_dict := fun k =>
          if k = policy_id then some (runPolicyUpdate p) else st.policy_dict k
        new_exp_counter := fun k =>
          if k = policy_id then 0 else st.new_exp_counter k
        updated_policy_ids := insertSet policy_id st.updated_policy_ids }
    else st

/-- The second loop of `on_experiences`, over all updatable policies. -/
def updateLoop (st : LocalPolicyManager) : LocalPolicyManager :=
  (updatablePolicyIds st).foldl updateStep st

/-- `LocalPolicyManager.on_experiences`: store the incoming experiences, then
update every updatable policy whose condition is met. -/
def on_experiences (st : LocalPolicyManager)
    (exp_by_policy : List (String × ExperienceSet)) :
    Except PMError LocalPolicyManager :=
  match storeLoop st exp_by_policy with
  | .error e => .error e
  | .ok st1 => .ok (updateLoop st1)

/-- The `update_count` observable of the policy registered under `policy_id`
(0 when no such policy exists). -/
def updCount (st : LocalPolicyManager) (policy_id : String) : Nat :=
  match st.policy_dict policy_id with
  | some p => p.update_count
  | none => 0

/-- The buffered experience-memory size of the policy registered under
`policy_id` (0 when no such policy exists). -/
def memSize (st : LocalPolicyManager) (policy_id : String) : Nat :=
  match st.policy_dict policy_id with
  | some p => p.experience_memory_size
  | none => 0

/-- `LocalPolicyManager.get_state`: return the exported state of every policy
in `_updated_policy_ids` and clear that set. The opaque `policy.get_state()`
payload is embedded as the policy's `update_count` observable. -/
def get_state (st : LocalPolicyManager) :
    List (String × Nat) × LocalPolicyManager :=
  (st.updated_policy_ids.map (fun policy_id => (policy_id, updCount st policy_id)),
   { st with updated_policy_ids := [] })

/-- Whether the policy registered under `policy_id` in the current manager
state is updatable. -/
def isUpdatableAt (st : LocalPolicyManager) (policy_id : String) : Bool :=
  match st.policy_dict policy_id with
  | some p => p.has_experience_memory && p.has_update
  | none => false

/-- The update condition of `updateStep` as a predicate on the state. -/
def condAt (st : LocalPolicyManager) (policy_id : String) : Bool :=
  match st.policy_dict policy_id with
  | some p => triggerCond st policy_id p
  | none => false

/-- The full decision predicate of the second loop of `on_experiences`: the
policy is visited by the loop (it is an updatable policy of the manager) and
its update condition holds. -/
def shouldUpdate (st : LocalPolicyManager) (policy_id : String) : Bool :=
  decide (policy_id ∈ updatablePolicyIds st) && condAt st policy_id

/-- Whether the policy registered under `policy_id` has an experience memory
(participates in buffering). -/
def bufferCapableAt (st : LocalPolicyManager) (policy_id : String) : Bool :=
  match st.policy_dict policy_id with
  | some p => p.has_experience_memory
  | none => false

/-- Total record count delivered for `policy_id` by one `on_experiences`
mapping. -/
def deliveredSize (policy_id : String) (exps : List (String × ExperienceSet)) : Nat :=
  ((exps.filter (fun e => e.fst == policy_id)).map (fun e => e.snd.size)).sum

/-! ## The actor (`actor.py`) -/

/-- The `eval_schedule` argument of `actor`: `None`, an integer period, or an
explicit list of episode indices. -/
inductive EvalScheduleInput
  | unset
  | period (k : Nat)
  | explicitList (l : List Nat)

/-- Lines 74-76 of `actor.py`: always evaluate after the last episode — if the
schedule is empty or its last entry differs from `num_episodes`, append
`num_episodes`. -/
def finalizeSchedule (sched : List Nat) (num_episodes : Nat) : List Nat :=
  if sched = [] ∨ sched.getLast? ≠ some num_episodes then sched ++ [num_episodes]
  else sched

/-- Lines 65-76 of `actor.py`: build the evaluation schedule. `None` becomes
the empty list; an integer period `k` becomes
`[k * 1, ..., k * (num_episodes / k)]` (Python `//` is `Nat` division here,
all values being non-negative); an explicit list is sorted in place
(`list.sort`, embedded as insertion sort, which agrees with any ascending sort
on a list of numbers). Finally the last-episode entry is ensured. -/
def evalScheduleOf (input : EvalScheduleInput) (num_episodes : Nat) : List Nat :=
  let sched : List Nat :=
    match input with
    | .unset => []
    | .period k => (List.range (num_episodes / k)).map (fun i => k * (i + 1))
    | .explicitList l => l.insertionSort (· ≤ ·)
  finalizeSchedule sched num_episodes

/-- Observable events of one actor run, in program order. `initRT` is the
blocking `GET_INITIAL_POLICY_STATE` round trip, `collectRT` the blocking
`COLLECT_DONE` round trip at the end of a segment, `doneNotify` the one-way
`DONE` notification (sent with `proxy.isend`, a fire-and-forget notification
session, so no reply event exists for it), and `close` the release of the
proxy. Environment interactions are `reset`/`start`/`step` for the training
environment and `evalReset`/`evalStart`/`evalStep` for evaluation passes. -/
inductive Event
  | initRT
  | reset
  | start
  | step
  | collectRT
  | evalReset
  | evalStart
  | evalStep
  | doneNotify
  | close
deriving DecidableEq, Repr

/-- Number of steps taken by the inner roll-out loop of one segment
(`while env_wrapper.state and steps_to_go`), given the remaining environment
steps of the episode. Any negative `steps_to_go` stays truthy in Python when
decremented, so a negative `num_steps` rolls out to environment termination;
a positive budget takes at most `num_steps` steps. -/
def segSteps (num_steps : Int) (remaining : Nat) : Nat :=
  if num_steps < 0 then remaining else min num_steps.toNat remaining

/-- The segment loop of one training episode (`while env_wrapper.state`),
embedded with the remaining environment-step count as explicit fuel: each
segment emits its environment steps followed by one `COLLECT_DONE` round trip.
Any valid step budget makes at least one step per segment, so fuel equal to
the episode length suffices exactly; the `segSteps ... = 0` guard is
unreachable for budgets accepted by the actor's validation (with
`num_steps = 0` the Python loop would spin forever). -/
def episodeEventsAux (num_steps : Int) : Nat → Nat → List Event
  | 0, _ => []
  | _, 0 => []
  | fuel + 1, remaining + 1 =>
    let s := segSteps num_steps (remaining + 1)
    if s = 0 then []
    else
      List.replicate s Event.step ++
        Event.collectRT :: episodeEventsAux num_steps fuel (remaining + 1 - s)

/-- One training episode: `env_wrapper.reset()`, `env_wrapper.start()`, then
the segment loop, for an episode whose environment terminates after
`len` steps. -/
def trainEpisode (num_steps : Int) (len : Nat) : List Event :=
  Event.reset :: Event.start :: episodeEventsAux num_steps len len

/-- One evaluation pass: reset and start the evaluation environment and step
it to termination (`len` steps); no experience round trip occurs. -/
def evalEpisode (len : Nat) : List Event :=
  Event.evalReset :: Event.evalStart :: List.replicate len Event.evalStep

/-- The main loop of `actor` (`for ep in range(1, num_episodes + 1)`), with
`ep` the current episode index, `idx` the `eval_point_index`, and the third
argument the number of episodes still to run. `epLen ep` (resp. `evalLen ep`)
gives the number of environment steps episode `ep`'s training (resp.
evaluation) environment runs before terminating. An evaluation pass runs when
`ep == eval_schedule[eval_point_index]` (embedded with a safe list lookup; an
out-of-range `eval_point_index` is unreachable for schedules produced by
`evalScheduleOf`, whose last entry is the final episode). -/
def mainLoop (num_steps : Int) (epLen evalLen : Nat → Nat) (sched : List Nat) :
    Nat → Nat → Nat → List Event
  | _, _, 0 => []
  | ep, idx, n + 1 =>
    trainEpisode num_steps (epLen ep) ++
      (if sched[idx]? = some ep then
        evalEpisode (evalLen ep) ++
          mainLoop num_steps epLen evalLen sched (ep + 1) (idx + 1) n
      else
        mainLoop num_steps epLen evalLen sched (ep + 1) idx n)

/-- The `actor` function of `actor.py` as an event-trace generator. The first
statement validates `num_steps` (`if num_steps == 0 or num_steps < -1: raise
ValueError(...)`) before the proxy is created or any environment is touched,
so an invalid budget produces an error carrying no events at all. A valid run
performs the initial-state round trip, the main loop over `num_episodes`
episodes, the one-way done notification and the proxy close. -/
def actorRun (num_steps : Int) (num_episodes : Nat)
    (eval_schedule : EvalScheduleInput) (epLen evalLen : Nat → Nat) :
    Except String (List Event) :=
  if num_steps = 0 ∨ num_steps < -1 then
    .error "num_steps must be a positive integer or -1"
  else
    let sched := evalScheduleOf eval_schedule num_episodes
    .ok (Event.initRT ::
      (mainLoop num_steps epLen evalLen sched 1 0 num_episodes ++
        [Event.doneNotify, Event.close]))

/-! ## Lemmas about the experience-storing loop -/

theorem deliveredSize_cons (policy_id q : String) (e : ExperienceSet)
    (rest : List (String × ExperienceSet)) :
    deliveredSize policy_id ((q, e) :: rest) =
      (if q = policy_id then e.size else 0) + deliveredSize policy_id rest := by
  by_cases h : q = policy_id <;>
    simp [deliveredSize, List.filter_cons, h]

theorem storeLoop_ok_inv (exps : List (String × ExperienceSet)) :
    ∀ st st1, storeLoop st exps = .ok st1 →
      st1.names = st.names ∧ st1.update_trigger = st.update_trigger ∧
      st1.updated_policy_ids = st.updated_policy_ids ∧
      ∀ pid, updCount st1 pid = updCount st pid ∧
        isUpdatableAt st1 pid = isUpdatableAt st pid ∧
        bufferCapableAt st1 pid = bufferCapableAt st pid := by
  induction exps with
  | nil =>
    intro st st1 h
    simp only [storeLoop, Except.ok.injEq] at h
    subst h
    simp
  | cons hd rest ih =>
    intro st st1 h
    obtain ⟨q, e⟩ := hd
    simp only [storeLoop] at h
    cases hq : st.policy_dict q with
    | none => simp only [hq] at h; exact Except.noConfusion h
    | some p =>
      simp only [hq] at h
      by_cases hmem : p.has_experience_memory = true
      · rw [if_pos hmem] at h
        have := ih _ _ h
        refine ⟨this.1, this.2.1, this.2.2.1, fun pid => ?_⟩
        have hp := (this.2.2.2 pid)
        by_cases hpq : pid = q
        · subst hpq
          simpa [updCount, isUpdatableAt, bufferCapableAt, hq, memoryPut] using hp
        · simpa [updCount, isUpdatableAt, bufferCapableAt, hpq] using hp
      · rw [if_neg hmem] at h
        exact ih _ _ h

theorem storeLoop_counter_mem (exps : List (String × ExperienceSet)) :
    ∀ st st1, storeLoop st exps = .ok st1 →
      ∀ pid, bufferCapableAt st pid = true →
        st1.new_exp_counter pid = st.new_exp_counter pid + deliveredSize pid exps ∧
        memSize st1 pid = memSize st pid + deliveredSize pid exps := by
  induction exps with
  | nil =>
    intro st st1 h pid _
    simp only [storeLoop, Except.ok.injEq] at h
    subst h
    simp [deliveredSize]
  | cons hd rest ih =>
    intro st st1 h pid hcap
    obtain ⟨q, e⟩ := hd
    simp only [storeLoop] at h
    cases hq : st.policy_dict q with
    | none => simp only [hq] at h; exact Except.noConfusion h
    | some p =>
      simp only [hq] at h
      by_cases hmem : p.has_experience_memory = true
      · rw [if_pos hmem] at h
        by_cases hpq : q = pid
        · subst hpq
          have hcap' : bufferCapableAt
              { st with
                new_exp_counter := fun k =>
                  if k = q then st.new_exp_counter q + e.size
                  else st.new_exp_counter k
                policy_dict := fun k =>
                  if k = q then some (memoryPut p e) else st.policy_dict k } q = true := by
            simp [bufferCapableAt, memoryPut, hmem]
          have := ih _ _ h q hcap'
          rw [deliveredSize_cons]
          constructor
          · rw [this.1]; simp [Nat.add_assoc, Nat.add_comm e.size]
          · rw [this.2]; simp [memSize, hq, memoryPut, Nat.add_assoc,
              Nat.add_comm e.size]
        · have hcap' : bufferCapableAt
              { st with
                new_exp_counter := fun k =>
                  if k = q then st.new_exp_counter q + e.size
                  else st.new_exp_counter k
                policy_dict := fun k =>
                  if k = q then some (memoryPut p e) else st.policy_dict k } pid = true := by
            have hpq' : ¬(pid = q) := fun h' => hpq h'.symm
            simpa [bufferCapableAt, hpq'] using hcap
          have := ih _ _ h pid hcap'
          have hpq' : pid ≠ q := fun h' => hpq h'.symm
          rw [deliveredSize_cons, if_neg hpq]
          constructor
          · rw [this.1]; simp [hpq']
          · rw [this.2]; simp [memSize, hpq']
      · rw [if_neg hmem] at h
        have hqpid : q ≠ pid := by
          intro h'
          subst h'
          rw [bufferCapableAt, hq] at hcap
          exact hmem hcap
        have := ih _ _ h pid hcap
        rw [deliveredSize_cons, if_neg hqpid]
        simpa using this

theorem storeLoop_unknown_key (exps : List (String × ExperienceSet)) (pid : String) :
    ∀ st, st.policy_dict pid = none → pid ∈ exps.map Prod.fst →
      ∃ k, storeLoop st exps = .error (.keyError k) := by
  induction exps with
  | nil => intro st _ hmem; simp at hmem
  | cons hd rest ih =>
    intro st hnone hmem
    obtain ⟨q, e⟩ := hd
    cases hq : st.policy_dict q with
    | none => exact ⟨q, by simp [storeLoop, hq]⟩
    | some p =>
      have hqpid : pid ≠ q := by
        intro h'; subst h'; rw [hnone] at hq; exact Option.noConfusion hq
      have hmem' : pid ∈ rest.map Prod.fst := by
        simpa [hqpid] using hmem
      simp only [storeLoop, hq]
      by_cases hmemcap : p.has_experience_memory = true
      · rw [if_pos hmemcap]
        exact ih _ (by simpa [hqpid] using hnone) hmem'
      · rw [if_neg hmemcap]
        exact ih _ hnone hmem'

/-! ## Lemmas about the update loop -/

theorem updateStep_names (st : LocalPolicyManager) (a : String) :
    (updateStep st a).names = st.names := by
  unfold updateStep
  cases st.policy_dict a with
  | none => rfl
  | some p => by_cases hc : triggerCond st a p <;> simp [hc]

theorem updateStep_trigger (st : LocalPolicyManager) (a : String) :
    (updateStep st a).update_trigger = st.update_trigger := by
  unfold updateStep
  cases st.policy_dict a with
  | none => rfl
  | some p => by_cases hc : triggerCond st a p <;> simp [hc]

theorem mem_insertSet (pid a : String) (s : List String) :
    pid ∈ insertSet a s ↔ pid ∈ s ∨ pid = a := by
  unfold insertSet
  by_cases ha : a ∈ s
  · simp only [if_pos ha]
    constructor
    · exact fun h => Or.inl h
    · rintro (h | h)
      · exact h
      · exact h ▸ ha
  · simp [if_neg ha]

theorem updateStep_ne (st : LocalPolicyManager) (a pid : String) (h : pid ≠ a) :
    (updateStep st a).policy_dict pid = st.policy_dict pid ∧
    (updateStep st a).new_exp_counter pid = st.new_exp_counter pid ∧
    (pid ∈ (updateStep st a).updated_policy_ids ↔ pid ∈ st.updated_policy_ids) := by
  unfold updateStep
  cases st.policy_dict a with
  | none => exact ⟨rfl, rfl, Iff.rfl⟩
  | some p =>
    by_cases hc : triggerCond st a p
    · simp [hc, h, mem_insertSet]
    · simp [hc]

theorem updateStep_self (st : LocalPolicyManager) (a : String) :
    (updateStep st a).policy_dict a =
      (if condAt st a = true then (st.policy_dict a).map runPolicyUpdate
       else st.policy_dict a) ∧
    (updateStep st a).new_exp_counter a =
      (if condAt st a = true then 0 else st.new_exp_counter a) ∧
    (a ∈ (updateStep st a).updated_policy_ids ↔
      (a ∈ st.updated_policy_ids ∨ condAt st a = true)) := by
  unfold updateStep condAt
  cases hq : st.policy_dict a with
  | none => simp [hq]
  | some p =>
    by_cases hc : triggerCond st a p
    · simp [hq, hc, mem_insertSet]
    · simp [hq, hc]

theorem condAt_updateStep_ne (st : LocalPolicyManager) (a pid : String) (h : pid ≠ a) :
    condAt (updateStep st a) pid = condAt st pid := by
  have hpd := (updateStep_ne st a pid h).1
  have hct := (updateStep_ne st a pid h).2.1
  have htr := updateStep_trigger st a
  unfold condAt triggerCond
  rw [hpd, hct, htr]

theorem foldl_updateStep_names (l : List String) :
    ∀ st : LocalPolicyManager, (l.foldl updateStep st).names = st.names := by
  induction l with
  | nil => intro st; rfl
  | cons a rest ih =>
    intro st
    simp only [List.foldl_cons]
    rw [ih, updateStep_names]

theorem foldl_updateStep_trigger (l : List String) :
    ∀ st : LocalPolicyManager, (l.foldl updateStep st).update_trigger = st.update_trigger := by
  induction l with
  | nil => intro st; rfl
  | cons a rest ih =>
    intro st
    simp only [List.foldl_cons]
    rw [ih, updateStep_trigger]

theorem foldl_updateStep_not_mem (l : List String) (pid : String) :
    ∀ st : LocalPolicyManager, pid ∉ l →
      (l.foldl updateStep st).policy_dict pid = st.policy_dict pid ∧
      (l.foldl updateStep st).new_exp_counter pid = st.new_exp_counter pid ∧
      (pid ∈ (l.foldl updateStep st).updated_policy_ids ↔
        pid ∈ st.updated_policy_ids) := by
  induction l with
  | nil => intro st _; exact ⟨rfl, rfl, Iff.rfl⟩
  | cons a rest ih =>
    intro st hnot
    have hne : pid ≠ a := fun h => hnot (h ▸ List.mem_cons_self a rest)
    have hrest : pid ∉ rest := fun h => hnot (List.mem_cons_of_mem a h)
    simp only [List.foldl_cons]
    have h1 := ih (updateStep st a) hrest
    have h2 := updateStep_ne st a pid hne
    exact ⟨h1.1.trans h2.1, (h1.2.1).trans h2.2.1, (h1.2.2).trans h2.2.2⟩

theorem foldl_updateStep_mem (l : List String) (pid : String) :
    ∀ st : LocalPolicyManager, l.Nodup → pid ∈ l →
      (l.foldl updateStep st).policy_dict pid =
        (if condAt st pid = true then (st.policy_dict pid).map runPolicyUpdate
         else st.policy_dict pid) ∧
      (l.foldl updateStep st).new_exp_counter pid =
        (if condAt st pid = true then 0 else st.new_exp_counter pid) ∧
      (pid ∈ (l.foldl updateStep st).updated_policy_ids ↔
        (pid ∈ st.updated_policy_ids ∨ condAt st pid = true)) := by
  induction l with
  | nil => intro st _ hmem; simp at hmem
  | cons a rest ih =>
    intro st hnd hmem
    simp only [List.foldl_cons]
    rcases List.mem_cons.mp hmem with heq | hrest
    · subst heq
      have hnotrest : pid ∉ rest := (List.nodup_cons.mp hnd).1
      have h1 := foldl_updateStep_not_mem rest pid (updateStep st pid) hnotrest
      have h2 := updateStep_self st pid
      exact ⟨h1.1.trans h2.1, (h1.2.1).trans h2.2.1, (h1.2.2).trans h2.2.2⟩
    · have hne : pid ≠ a := by
        intro h
        subst h
        exact (List.nodup_cons.mp hnd).1 hrest
      have h1 := ih (updateStep st a) (List.nodup_cons.mp hnd).2 hrest
      have h2 := updateStep_ne st a pid hne
      have hcond := condAt_updateStep_ne st a pid hne
      rw [hcond] at h1
      refine ⟨?_, ?_, ?_⟩
      · rw [h1.1, h2.1]
      · rw [h1.2.1, h2.2.1]
      · rw [h1.2.2]
        by_cases hc : condAt st pid = true <;> simp [hc, h2.2.2]

theorem updateLoop_at (st : LocalPolicyManager) (hnd : st.names.Nodup) (pid : String) :
    updCount (updateLoop st) pid =
      updCount st pid + (if shouldUpdate st pid = true then 1 else 0) ∧
    (updateLoop st).new_exp_counter pid =
      (if shouldUpdate st pid = true then 0 else st.new_exp_counter pid) ∧
    (pid ∈ (updateLoop st).updated_policy_ids ↔
      (pid ∈ st.updated_policy_ids ∨ shouldUpdate st pid = true)) ∧
    bufferCapableAt (updateLoop st) pid = bufferCapableAt st pid := by
  have hlnd : (updatablePolicyIds st).Nodup := hnd.filter _
  by_cases hmem : pid ∈ updatablePolicyIds st
  · have hch := foldl_updateStep_mem (updatablePolicyIds st) pid st hlnd hmem
    have hsu : shouldUpdate st pid = condAt st pid := by
      simp [shouldUpdate, hmem]
    rw [updateLoop, hsu]
    cases hpd : st.policy_dict pid with
    | none =>
      have hcf : condAt st pid = false := by simp [condAt, hpd]
      rw [hcf] at hch ⊢
      simp only [Bool.false_eq_true, if_false] at hch ⊢
      exact ⟨by simp [updCount, hch.1], hch.2.1, by simpa using hch.2.2,
        by simp [bufferCapableAt, hch.1]⟩
    | some p =>
      by_cases hc : condAt st pid = true
      · rw [hc] at hch ⊢
        simp only [if_true] at hch ⊢
        refine ⟨?_, hch.2.1, by simpa using hch.2.2, ?_⟩
        · simp [updCount, hch.1, hpd, runPolicyUpdate]
        · simp [bufferCapableAt, hch.1, hpd, runPolicyUpdate]
      · rw [Bool.not_eq_true] at hc
        rw [hc] at hch ⊢
        simp only [Bool.false_eq_true, if_false] at hch ⊢
        exact ⟨by simp [updCount, hch.1], hch.2.1, by simpa using hch.2.2,
          by simp [bufferCapableAt, hch.1]⟩
  · have hch := foldl_updateStep_not_mem (updatablePolicyIds st) pid st hmem
    have hsu : shouldUpdate st pid = false := by
      simp [shouldUpdate, hmem]
    rw [updateLoop, hsu]
    simp only [Bool.false_eq_true, if_false]
    exact ⟨by simp [updCount, hch.1], hch.2.1, by simpa using hch.2.2,
      by simp [bufferCapableAt, hch.1]⟩

theorem on_experiences_ok_elim (st stm st' : LocalPolicyManager)
    (exps : List (String × ExperienceSet))
    (hstore : storeLoop st exps = .ok stm)
    (hrun : on_experiences st exps = .ok st') : st' = updateLoop stm := by
  rw [on_experiences, hstore] at hrun
  exact (Except.ok.injEq _ _ ▸ hrun).symm

theorem on_experiences_ok_store (st st' : LocalPolicyManager)
    (exps : List (String × ExperienceSet))
    (hrun : on_experiences st exps = .ok st') :
    ∃ stm, storeLoop st exps = .ok stm ∧ st' = updateLoop stm := by
  rw [on_experiences] at hrun
  cases hstore : storeLoop st exps with
  | error e => rw [hstore] at hrun; exact Except.noConfusion hrun
  | ok stm =>
    rw [hstore] at hrun
    exact ⟨stm, rfl, (by injection hrun with h; exact h.symm)⟩

/-- Combined effect of one `on_experiences` call on one buffer-capable policy:
names and buffering capability are preserved, and either no update ran and the
pending counter grew by exactly the delivered record count, or one update ran
and the pending counter was reset to 0. -/
theorem on_experiences_counter_mem (st st' : LocalPolicyManager)
    (exps : List (String × ExperienceSet)) (pid : String)
    (hnd : st.names.Nodup) (hcap : bufferCapableAt st pid = true)
    (hrun : on_experiences st exps = .ok st') :
    st'.names = st.names ∧ bufferCapableAt st' pid = true ∧
    ((updCount st' pid = updCount st pid ∧
        st'.new_exp_counter pid = st.new_exp_counter pid + deliveredSize pid exps) ∨
      (updCount st' pid = updCount st pid + 1 ∧ st'.new_exp_counter pid = 0)) := by
  obtain ⟨stm, hstore, hst'⟩ := on_experiences_ok_store st st' exps hrun
  subst hst'
  have hinv := storeLoop_ok_inv exps st stm hstore
  have hndm : stm.names.Nodup := hinv.1 ▸ hnd
  have hcapm : bufferCapableAt stm pid = true := (hinv.2.2.2 pid).2.2.trans hcap
  have hat := updateLoop_at stm hndm pid
  have hcm := storeLoop_counter_mem exps st stm hstore pid hcap
  refine ⟨(foldl_updateStep_names _ _).trans hinv.1, hat.2.2.2.trans hcapm, ?_⟩
  have hucm : updCount stm pid = updCount st pid := (hinv.2.2.2 pid).1
  by_cases hsu : shouldUpdate stm pid = true
  · right
    rw [hsu] at hat
    simp only [if_true] at hat
    exact ⟨hat.1.trans (by rw [hucm]), hat.2.1⟩
  · left
    rw [Bool.not_eq_true] at hsu
    rw [hsu] at hat
    simp only [Bool.false_eq_true, if_false] at hat
    exact ⟨(hat.1.trans (by simp)).trans hucm, hat.2.1.trans hcm.1⟩

/-! ## Example states used by the witnesses -/

/-- An updatable policy (has `experience_memory` and `update`) with an empty
buffer. -/
def exPolicyUpd : Policy :=
  { has_experience_memory := true, has_update := true
    experience_memory_size := 0, update_count := 0 }

/-- The trigger `min_new_experiences = 2`, `num_warmup_experiences = 3`. -/
def exTrigger : PolicyUpdateTrigger :=
  { min_new_experiences := 2, num_warmup_experiences := 3 }

/-- A fallback empty manager (unreachable in the example constructions). -/
def exEmptyMgr : LocalPolicyManager := mkManager [] (fun _ => none)

/-- Manager over the single policy `"P"` with trigger `exTrigger`. -/
def exMgrTrig : LocalPolicyManager :=
  match initLocalPolicyManager [("P", exPolicyUpd)] (.single exTrigger) with
  | .ok m => m
  | .error _ => exEmptyMgr

/-- Manager over the single policy `"P"` constructed with the explicit trigger
dictionary `{}`, so `"P"` has no registered trigger. -/
def exMgrNoTrig : LocalPolicyManager :=
  match initLocalPolicyManager [("P", exPolicyUpd)] (.dict []) with
  | .ok m => m
  | .error _ => exEmptyMgr

/-- A single batch of 3 records for `"P"`. -/
def exExps1 : List (String × ExperienceSet) := [("P", ⟨3⟩)]

/-- `exMgrTrig` after the buffering phase of `on_experiences exExps1`. -/
def exStm1 : LocalPolicyManager :=
  match storeLoop exMgrTrig exExps1 with
  | .ok m => m
  | .error _ => exEmptyMgr

/-- `exMgrTrig` after `on_experiences exExps1`. -/
def exSt1 : LocalPolicyManager :=
  match on_experiences exMgrTrig exExps1 with
  | .ok m => m
  | .error _ => exEmptyMgr

/-- `exMgrNoTrig` after `on_experiences` with the empty mapping. -/
def exSt2 : LocalPolicyManager :=
  match on_experiences exMgrNoTrig [] with
  | .ok m => m
  | .error _ => exEmptyMgr

/-- A single batch of 2 records for `"P"`. -/
def exExps4 : List (String × ExperienceSet) := [("P", ⟨2⟩)]

/-- `exMgrNoTrig` after `on_experiences exExps4`. -/
def exSt4 : LocalPolicyManager :=
  match on_experiences exMgrNoTrig exExps4 with
  | .ok m => m
  | .error _ => exEmptyMgr

/-- A single batch of 1 record for `"P"`. -/
def exExps8 : List (String × ExperienceSet) := [("P", ⟨1⟩)]

/-- `exMgrTrig` after one `on_experiences exExps8` call (1 record buffered,
below the warmup threshold 3, so no update). -/
def exSt8a : LocalPolicyManager :=
  match on_experiences exMgrTrig exExps8 with
  | .ok m => m
  | .error _ => exEmptyMgr

/-- `exSt8a` after a second `on_experiences exExps8` call (2 records buffered,
still below the warmup threshold 3, so still no update). -/
def exSt8b : LocalPolicyManager :=
  match on_experiences exSt8a exExps8 with
  | .ok m => m
  | .error _ => exEmptyMgr

/-! ## Claim theorems -/

/-- C1: For every policy that has a registered update trigger with warmup
threshold `W = t.num_warmup_experiences` and new-experience threshold
`M = t.min_new_experiences`, a single `on_experiences` call performs that
policy's update if and only if the policy's buffered experience-memory size is
at least `W` and its pending-experience counter is at least `M` (both taken at
decision time, i.e. after the call's batches have been buffered by the first
loop, whose result is `stm`). -/
theorem C1_update_gating (st stm st' : LocalPolicyManager)
    (exps : List (String × ExperienceSet)) (pid : String) (t : PolicyUpdateTrigger)
    (hnd : st.names.Nodup)
    (hstore : storeLoop st exps = .ok stm)
    (hrun : on_experiences st exps = .ok st')
    (hupd : isUpdatableAt stm pid = true)
    (hin : pid ∈ stm.names)
    (ht : stm.update_trigger pid = some t) :
    updCount stm pid < updCount st' pid ↔
      (t.num_warmup_experiences ≤ memSize stm pid ∧
        t.min_new_experiences ≤ stm.new_exp_counter pid) := by
  have hst' := on_experiences_ok_elim st stm st' exps hstore hrun
  subst hst'
  have hndm : stm.names.Nodup := (storeLoop_ok_inv exps st stm hstore).1 ▸ hnd
  have hat := updateLoop_at stm hndm pid
  rw [hat.1]
  have hmem : pid ∈ updatablePolicyIds stm := by
    rw [updatablePolicyIds, List.mem_filter]
    exact ⟨hin, hupd⟩
  have hsu : shouldUpdate stm pid = condAt stm pid := by
    simp [shouldUpdate, hmem]
  rw [hsu]
  cases hpd : stm.policy_dict pid with
  | none => rw [isUpdatableAt, hpd] at hupd; exact Bool.noConfusion hupd
  | some p =>
    have hcond : condAt stm pid =
        (decide (t.num_warmup_experiences ≤ p.experience_memory_size) &&
          decide (t.min_new_experiences ≤ stm.new_exp_counter pid)) := by
      rw [condAt, hpd]
      simp only [triggerCond, ht]
    rw [hcond, memSize, hpd]
    by_cases h1 : t.num_warmup_experiences ≤ p.experience_memory_size <;>
      by_cases h2 : t.min_new_experiences ≤ stm.new_exp_counter pid <;>
        simp [h1, h2]

/-- Witness for C1 at a concrete run: one policy `"P"` with trigger
`(min_new := 2, warmup := 3)` receiving one batch of 3 records. -/
theorem C1_update_gating_witness :
    updCount exStm1 "P" < updCount exSt1 "P" ↔
      (exTrigger.num_warmup_experiences ≤ memSize exStm1 "P" ∧
        exTrigger.min_new_experiences ≤ exStm1.new_exp_counter "P") :=
  C1_update_gating exMgrTrig exStm1 exSt1 exExps1 "P" exTrigger
    (by decide) rfl rfl (by decide) (by decide) rfl

/-- C2 counterexample: `"P"` is updatable but has no registered trigger
(the manager was built with the explicit trigger dictionary `{}`), its
experience buffer is empty (`memSize = 0`), and an `on_experiences` call with
an empty experience mapping still performs its update (`update_count` goes
from 0 to 1). This refutes "it is never updated when its buffer is empty". -/
theorem C2_no_trigger_cex :
    initLocalPolicyManager [("P", exPolicyUpd)] (.dict []) = .ok exMgrNoTrig ∧
    exMgrNoTrig.update_trigger "P" = none ∧
    isUpdatableAt exMgrNoTrig "P" = true ∧
    memSize exMgrNoTrig "P" = 0 ∧
    on_experiences exMgrNoTrig [] = .ok exSt2 ∧
    updCount exMgrNoTrig "P" = 0 ∧ updCount exSt2 "P" = 1 :=
  ⟨rfl, rfl, rfl, rfl, rfl, rfl, rfl⟩

/-- C2 (amended): for every updatable policy with no trigger registered in the
manager's trigger mapping, an `on_experiences` call always performs that
policy's update — unconditionally, whether or not its experience buffer is
empty. -/
theorem C2_no_trigger_always_updates (st stm st' : LocalPolicyManager)
    (exps : List (String × ExperienceSet)) (pid : String)
    (hnd : st.names.Nodup)
    (hstore : storeLoop st exps = .ok stm)
    (hrun : on_experiences st exps = .ok st')
    (hupd : isUpdatableAt stm pid = true)
    (hin : pid ∈ stm.names)
    (ht : stm.update_trigger pid = none) :
    updCount st' pid = updCount stm pid + 1 := by
  have hst' := on_experiences_ok_elim st stm st' exps hstore hrun
  subst hst'
  have hndm : stm.names.Nodup := (storeLoop_ok_inv exps st stm hstore).1 ▸ hnd
  have hat := updateLoop_at stm hndm pid
  have hmem : pid ∈ updatablePolicyIds stm := by
    rw [updatablePolicyIds, List.mem_filter]
    exact ⟨hin, hupd⟩
  cases hpd : stm.policy_dict pid with
  | none => rw [isUpdatableAt, hpd] at hupd; exact Bool.noConfusion hupd
  | some p =>
    have hsu : shouldUpdate stm pid = true := by
      have hcond : condAt stm pid = true := by
        rw [condAt, hpd]
        simp only [triggerCond, ht]
      simp [shouldUpdate, hmem, hcond]
    rw [hat.1, hsu]
    simp

/-- Witness for the amended C2 at the concrete states of the counterexample. -/
theorem C2_no_trigger_always_updates_witness :
    updCount exSt2 "P" = updCount exMgrNoTrig "P" + 1 :=
  C2_no_trigger_always_updates exMgrNoTrig exMgrNoTrig exSt2 [] "P"
    (by decide) rfl rfl (by decide) (by decide) rfl

/-- C4: starting from a freshly drained state (`_updated_policy_ids` empty),
when an `on_experiences` call updates exactly the policies whose
`update_count` observable increased, the next `get_state` returns a mapping
whose key set is exactly that set of policies. -/
theorem C4_get_state_delta (st st' : LocalPolicyManager)
    (exps : List (String × ExperienceSet))
    (hnd : st.names.Nodup)
    (hdrained : st.updated_policy_ids = [])
    (hrun : on_experiences st exps = .ok st') :
    ∀ pid, pid ∈ (get_state st').fst.map Prod.fst ↔
      updCount st pid < updCount st' pid := by
  intro pid
  obtain ⟨stm, hstore, hst'⟩ := on_experiences_ok_store st st' exps hrun
  subst hst'
  have hinv := storeLoop_ok_inv exps st stm hstore
  have hndm : stm.names.Nodup := hinv.1 ▸ hnd
  have hat := updateLoop_at stm hndm pid
  have hkeys : (get_state (updateLoop stm)).fst.map Prod.fst =
      (updateLoop stm).updated_policy_ids := by
    simp [get_state, List.map_map, Function.comp_def]
  rw [hkeys, hat.2.2.1, hinv.2.2.1, hdrained, hat.1, (hinv.2.2.2 pid).1]
  by_cases hsu : shouldUpdate stm pid = true
  · simp [hsu]
  · rw [Bool.not_eq_true] at hsu
    simp [hsu]

/-- Witness for C4: `"P"` (no trigger registered) is updated by a submit of
one 2-record batch from a drained state, and `get_state` then reports exactly
the policies whose update ran. -/
theorem C4_get_state_delta_witness :
    "P" ∈ (get_state exSt4).fst.map Prod.fst ↔
      updCount exMgrNoTrig "P" < updCount exSt4 "P" :=
  C4_get_state_delta exMgrNoTrig exSt4 exExps4 (by decide) rfl rfl "P"

/-- C5: calling `get_state` twice in succession with no intervening
`on_experiences` call returns an empty mapping on the second call, for every
manager state. -/
theorem C5_get_state_drain_idempotent (st : LocalPolicyManager) :
    (get_state (get_state st).snd).fst = [] := rfl

/-- C7: constructing the local policy manager with a per-policy trigger
mapping raises an error if and only if some key of the mapping is not a known
policy identifier; on error no manager is produced at all. -/
theorem C7_trigger_key_validation (pd : List (String × Policy))
    (d : List (String × PolicyUpdateTrigger)) :
    (∃ e, initLocalPolicyManager pd (.dict d) = .error e) ↔
      ∃ k ∈ d.map Prod.fst, k ∉ pd.map Prod.fst := by
  by_cases h : d.all (fun e => (pd.map Prod.fst).contains e.fst) = true
  · rw [initLocalPolicyManager]
    simp only [h, if_true]
    rw [List.all_eq_true] at h
    constructor
    · rintro ⟨e, he⟩
      exact Except.noConfusion he
    · rintro ⟨k, hk, hnot⟩
      obtain ⟨⟨k', t⟩, hmem, hfst⟩ := List.mem_map.mp hk
      subst hfst
      have := h _ hmem
      simp at this hnot
      obtain ⟨x, hx⟩ := this
      exact (hnot x hx).elim
  · rw [initLocalPolicyManager]
    simp only [h, if_false]
    constructor
    · intro _
      rw [List.all_eq_true] at h
      push_neg at h
      obtain ⟨⟨k, t⟩, hmem, hfail⟩ := h
      refine ⟨k, List.mem_map.mpr ⟨(k, t), hmem, rfl⟩, ?_⟩
      simpa using hfail
    · intro _
      exact ⟨_, rfl⟩

/-- C8: for a buffer-capable policy, one `on_experiences` call increments the
pending-experience counter by exactly the delivered record count when no
update runs, resets it to zero exactly when the update runs, and two
successive calls delivering `m` and `n` records with no update triggered in
between leave the counter at its initial value plus `m + n`. -/
theorem C8_pending_counter (st st' : LocalPolicyManager)
    (exps : List (String × ExperienceSet)) (pid : String)
    (hnd : st.names.Nodup)
    (hcap : bufferCapableAt st pid = true)
    (hrun : on_experiences st exps = .ok st') :
    (updCount st' pid = updCount st pid →
      st'.new_exp_counter pid = st.new_exp_counter pid + deliveredSize pid exps) ∧
    (updCount st pid < updCount st' pid → st'.new_exp_counter pid = 0) ∧
    (∀ exps2 st2, on_experiences st' exps2 = .ok st2 →
      updCount st2 pid = updCount st pid →
      st2.new_exp_counter pid =
        st.new_exp_counter pid + deliveredSize pid exps + deliveredSize pid exps2) := by
  have h1 := on_experiences_counter_mem st st' exps pid hnd hcap hrun
  refine ⟨?_, ?_, ?_⟩
  · intro heq
    rcases h1.2.2 with ⟨_, hc⟩ | ⟨hu, _⟩
    · exact hc
    · rw [hu] at heq; omega
  · intro hlt
    rcases h1.2.2 with ⟨hu, _⟩ | ⟨_, hc⟩
    · rw [hu] at hlt; omega
    · exact hc
  · intro exps2 st2 hrun2 heq
    have hnd' : st'.names.Nodup := h1.1 ▸ hnd
    have h2 := on_experiences_counter_mem st' st2 exps2 pid hnd' h1.2.1 hrun2
    rcases h1.2.2 with ⟨hu1, hc1⟩ | ⟨hu1, _⟩
    · rcases h2.2.2 with ⟨_, hc2⟩ | ⟨hu2, _⟩
      · rw [hc2, hc1, Nat.add_assoc]
      · rw [hu2, hu1] at heq; omega
    · rcases h2.2.2 with ⟨hu2, _⟩ | ⟨hu2, _⟩ <;>
        · rw [hu2, hu1] at heq; omega

/-- Witness for C8: `"P"` under trigger `(min_new := 2, warmup := 3)` receives
two 1-record batches; no update runs (buffered size stays below 3) and the
counter accumulates to `0 + 1 + 1`. -/
theorem C8_pending_counter_witness :
    (updCount exSt8a "P" = updCount exMgrTrig "P" →
      exSt8a.new_exp_counter "P" =
        exMgrTrig.new_exp_counter "P" + deliveredSize "P" exExps8) ∧
    (updCount exMgrTrig "P" < updCount exSt8a "P" →
      exSt8a.new_exp_counter "P" = 0) ∧
    (∀ exps2 st2, on_experiences exSt8a exps2 = .ok st2 →
      updCount st2 "P" = updCount exMgrTrig "P" →
      st2.new_exp_counter "P" =
        exMgrTrig.new_exp_counter "P" + deliveredSize "P" exExps8 +
          deliveredSize "P" exps2) :=
  C8_pending_counter exMgrTrig exSt8a exExps8 "P" (by decide) rfl rfl

/-- C10: an `on_experiences` call whose experience mapping contains a policy
identifier not among the manager's known policies raises a key-lookup error
(the whole call fails with a `KeyError`; the entry is not silently dropped). -/
theorem C10_unknown_policy_key_error (st : LocalPolicyManager)
    (exps : List (String × ExperienceSet)) (pid : String)
    (hnone : st.policy_dict pid = none)
    (hmem : pid ∈ exps.map Prod.fst) :
    ∃ k, on_experiences st exps = .error (.keyError k) := by
  obtain ⟨k, hk⟩ := storeLoop_unknown_key exps pid st hnone hmem
  exact ⟨k, by rw [on_experiences, hk]⟩

/-- Witness for C10: submitting a batch tagged with the unknown policy id
`"X"` to the one-policy manager fails with a `KeyError`. -/
theorem C10_unknown_policy_key_error_witness :
    ∃ k, on_experiences exMgrNoTrig [("X", ⟨1⟩)] = .error (.keyError k) :=
  C10_unknown_policy_key_error exMgrNoTrig [("X", ⟨1⟩)] "X" rfl (by decide)

/-! ## Lemmas about the evaluation schedule -/

theorem sorted_lt_le_getLast :
    ∀ l : List Nat, l.Sorted (· < ·) → ∀ x ∈ l, ∀ L, l.getLast? = some L → x ≤ L
  | [], _, x, hx, _, _ => by simp at hx
  | [a], _, x, hx, L, hL => by
      simp only [List.mem_singleton] at hx
      simp only [List.getLast?_singleton, Option.some.injEq] at hL
      omega
  | a :: b :: t, hs, x, hx, L, hL => by
      have hL' : (b :: t).getLast? = some L := by
        simpa [List.getLast?_cons_cons] using hL
      rcases List.mem_cons.mp hx with heq | hx'
      · subst heq
        have hLmem : L ∈ b :: t := List.mem_of_mem_getLast? hL'
        exact le_of_lt ((List.sorted_cons.mp hs).1 L hLmem)
      · exact sorted_lt_le_getLast (b :: t) (List.sorted_cons.mp hs).2 x hx' L hL'

theorem finalizeSchedule_good (l : List Nat) (N : Nat)
    (hs : l.Sorted (· < ·)) (hb : ∀ x ∈ l, x ≤ N) :
    (finalizeSchedule l N).Sorted (· < ·) ∧
    (finalizeSchedule l N).getLast? = some N := by
  unfold finalizeSchedule
  by_cases hcond : l = [] ∨ l.getLast? ≠ some N
  · rw [if_pos hcond]
    constructor
    · refine List.pairwise_append.mpr ⟨hs, by simp, ?_⟩
      intro x hx y hy
      simp only [List.mem_singleton] at hy
      rw [hy]
      cases hnil : l with
      | nil => subst hnil; simp at hx
      | cons a t =>
        have hlne : l ≠ [] := by rw [hnil]; simp
        have hlast : l.getLast? ≠ some N := by
          rcases hcond with h | h
          · exact absurd h hlne
          · exact h
        obtain ⟨L, hL⟩ : ∃ L, l.getLast? = some L := by
          rw [hnil]
          exact ⟨(a :: t).getLast (by simp), List.getLast?_eq_getLast _ _⟩
        have hxL : x ≤ L := sorted_lt_le_getLast l hs x hx L hL
        have hLN : L ≤ N := hb L (List.mem_of_mem_getLast? hL)
        have hLne : L ≠ N := fun h => hlast (h ▸ hL)
        omega
    · simp
  · rw [if_neg hcond]
    push_neg at hcond
    exact ⟨hs, hcond.2⟩

/-- The side condition under which the amended C3 holds: any `None` input, any
positive integer period, and any explicit list that is duplicate-free with all
entries at most the number of training episodes. -/
def evalInputOk : EvalScheduleInput → Nat → Prop
  | .unset, _ => True
  | .period k, _ => 1 ≤ k
  | .explicitList l, num_episodes => l.Nodup ∧ ∀ x ∈ l, x ≤ num_episodes

/-- C3 counterexample: for the explicit-list input `[2, 2]` and `N = 3`
training episodes (`N ≥ 1`), the computed schedule is `[2, 2, 3]`, which has a
duplicate entry and is not strictly ascending — refuting the claim that the
schedule is ascending and duplicate-free for every explicit-list input. -/
theorem C3_eval_schedule_cex :
    evalScheduleOf (.explicitList [2, 2]) 3 = [2, 2, 3] ∧
    ¬ (([2, 2, 3] : List Nat).Nodup) ∧
    ¬ (([2, 2, 3] : List Nat).Sorted (· < ·)) := by
  refine ⟨by decide, by decide, by decide⟩

/-- C3 (amended): for every number of training episodes `N ≥ 1`, the schedule
computed before the main loop is strictly ascending, duplicate-free, and ends
exactly at `N` — for the inputs `None` and any positive integer period
unconditionally, and for an explicit list provided the list has no duplicates
and no entry exceeding `N`. -/
theorem C3_eval_schedule (input : EvalScheduleInput) (N : Nat)
    (hN : 1 ≤ N) (hok : evalInputOk input N) :
    (evalScheduleOf input N).Sorted (· < ·) ∧
    (evalScheduleOf input N).Nodup ∧
    (evalScheduleOf input N).getLast? = some N := by
  have key : ∀ l : List Nat, l.Sorted (· < ·) → (∀ x ∈ l, x ≤ N) →
      (finalizeSchedule l N).Sorted (· < ·) ∧
      (finalizeSchedule l N).Nodup ∧
      (finalizeSchedule l N).getLast? = some N := by
    intro l hs hb
    have h := finalizeSchedule_good l N hs hb
    exact ⟨h.1, h.1.nodup, h.2⟩
  cases input with
  | unset =>
    exact key [] (by simp) (by simp)
  | period k =>
    have hk : 1 ≤ k := hok
    apply key
    · refine List.pairwise_map.mpr ?_
      refine (List.sorted_lt_range _).imp ?_
      intro i j hij
      have hij' : i + 1 < j + 1 := by omega
      exact Nat.mul_lt_mul_of_pos_left hij' (by omega)
    · intro x hx
      obtain ⟨i, hi, hx⟩ := List.mem_map.mp hx
      subst hx
      have hi' : i + 1 ≤ N / k := by
        have := List.mem_range.mp hi
        omega
      calc k * (i + 1) ≤ k * (N / k) := Nat.mul_le_mul_left k hi'
        _ = N / k * k := Nat.mul_comm _ _
        _ ≤ N := Nat.div_mul_le_self N k
  | explicitList l =>
    obtain ⟨hnd, hb⟩ := hok
    have hsle : (l.insertionSort (· ≤ ·)).Sorted (· ≤ ·) :=
      List.sorted_insertionSort _ l
    have hnd' : (l.insertionSort (· ≤ ·)).Nodup :=
      (List.perm_insertionSort _ l).nodup_iff.mpr hnd
    apply key
    · exact hsle.lt_of_le hnd'
    · intro x hx
      exact hb x ((List.mem_insertionSort _).mp hx)

/-- Witness for the amended C3: with period 2 and 3 training episodes the
schedule is `[2, 3]`. -/
theorem C3_eval_schedule_witness :
    (evalScheduleOf (.period 2) 3).Sorted (· < ·) ∧
    (evalScheduleOf (.period 2) 3).Nodup ∧
    (evalScheduleOf (.period 2) 3).getLast? = some 3 :=
  C3_eval_schedule (.period 2) 3 (by decide) (by decide : (1:Nat) ≤ 2)

/-! ## Lemmas about the actor trace -/

theorem mem_episodeEventsAux (num_steps : Int) :
    ∀ fuel remaining e, e ∈ episodeEventsAux num_steps fuel remaining →
      e = Event.step ∨ e = Event.collectRT := by
  intro fuel
  induction fuel with
  | zero =>
    intro remaining e h
    simp [episodeEventsAux] at h
  | succ f ih =>
    intro remaining e h
    cases remaining with
    | zero => simp [episodeEventsAux] at h
    | succ r =>
      rw [episodeEventsAux] at h
      by_cases hs : segSteps num_steps (r + 1) = 0
      · simp [hs] at h
      · simp only [hs, if_false, List.mem_append, List.mem_cons,
          List.mem_replicate] at h
        rcases h with ⟨_, hstep⟩ | hcoll | hrec
        · exact Or.inl hstep
        · exact Or.inr hcoll
        · exact ih _ e hrec

theorem mem_trainEpisode (num_steps : Int) (len : Nat) (e : Event)
    (h : e ∈ trainEpisode num_steps len) :
    e = Event.reset ∨ e = Event.start ∨ e = Event.step ∨ e = Event.collectRT := by
  rcases List.mem_cons.mp h with h1 | h1
  · exact Or.inl h1
  · rcases List.mem_cons.mp h1 with h2 | h2
    · exact Or.inr (Or.inl h2)
    · rcases mem_episodeEventsAux num_steps len len e h2 with h3 | h3
      · exact Or.inr (Or.inr (Or.inl h3))
      · exact Or.inr (Or.inr (Or.inr h3))

theorem mem_evalEpisode (len : Nat) (e : Event) (h : e ∈ evalEpisode len) :
    e = Event.evalReset ∨ e = Event.evalStart ∨ e = Event.evalStep := by
  rcases List.mem_cons.mp h with h1 | h1
  · exact Or.inl h1
  · rcases List.mem_cons.mp h1 with h2 | h2
    · exact Or.inr (Or.inl h2)
    · exact Or.inr (Or.inr (List.mem_replicate.mp h2).2)

theorem mem_mainLoop (num_steps : Int) (epLen evalLen : Nat → Nat)
    (sched : List Nat) :
    ∀ n ep idx e, e ∈ mainLoop num_steps epLen evalLen sched ep idx n →
      e ≠ Event.initRT ∧ e ≠ Event.doneNotify ∧ e ≠ Event.close := by
  intro n
  induction n with
  | zero =>
    intro ep idx e h
    simp [mainLoop] at h
  | succ m ih =>
    intro ep idx e h
    rw [mainLoop] at h
    rcases List.mem_append.mp h with htr | hrest
    · rcases mem_trainEpisode _ _ _ htr with h1 | h1 | h1 | h1 <;>
        subst h1 <;> exact ⟨by simp, by simp, by simp⟩
    · by_cases hev : sched[idx]? = some ep
      · rw [if_pos hev] at hrest
        rcases List.mem_append.mp hrest with heval | hrec
        · rcases mem_evalEpisode _ _ heval with h1 | h1 | h1 <;>
            subst h1 <;> exact ⟨by simp, by simp, by simp⟩
        · exact ih _ _ e hrec
      · rw [if_neg hev] at hrest
        exact ih _ _ e hrest

/-- C6: the actor raises its configuration error (before creating the proxy
or touching any environment — an error run carries no events at all) if and
only if `num_steps` is `0` or less than `-1`; `-1` and every positive value
are accepted, and no invalid value is silently clamped. -/
theorem C6_num_steps_validation (num_steps : Int) (num_episodes : Nat)
    (eval_schedule : EvalScheduleInput) (epLen evalLen : Nat → Nat) :
    (∃ msg, actorRun num_steps num_episodes eval_schedule epLen evalLen =
        .error msg) ↔
      (num_steps = 0 ∨ num_steps < -1) := by
  rw [actorRun]
  by_cases h : num_steps = 0 ∨ num_steps < -1
  · rw [if_pos h]
    exact ⟨fun _ => h, fun _ => ⟨_, rfl⟩⟩
  · rw [if_neg h]
    constructor
    · rintro ⟨msg, hmsg⟩
      exact Except.noConfusion hmsg
    · intro hv
      exact absurd hv h

/-- C9: every successful actor run starts with exactly one initial-state round
trip — before any environment reset or step — and ends, after all training
episodes, with exactly one one-way done notification (a notification session,
no reply awaited) followed by the proxy release. -/
theorem C9_startup_and_done (num_steps : Int) (num_episodes : Nat)
    (eval_schedule : EvalScheduleInput) (epLen evalLen : Nat → Nat)
    (tr : List Event)
    (hrun : actorRun num_steps num_episodes eval_schedule epLen evalLen = .ok tr) :
    ∃ body, tr = Event.initRT :: (body ++ [Event.doneNotify, Event.close]) ∧
      Event.initRT ∉ body ∧ Event.doneNotify ∉ body := by
  rw [actorRun] at hrun
  by_cases h : num_steps = 0 ∨ num_steps < -1
  · rw [if_pos h] at hrun
    exact Except.noConfusion hrun
  · rw [if_neg h] at hrun
    injection hrun with htr
    refine ⟨mainLoop num_steps epLen evalLen
      (evalScheduleOf eval_schedule num_episodes) 1 0 num_episodes,
      htr.symm, ?_, ?_⟩
    · intro hmem
      exact (mem_mainLoop _ _ _ _ _ _ _ _ hmem).1 rfl
    · intro hmem
      exact (mem_mainLoop _ _ _ _ _ _ _ _ hmem).2.1 rfl

/-- Witness for C9: the full-roll-out actor (`num_steps = -1`) over one
episode of one environment step, default evaluation schedule. -/
theorem C9_startup_and_done_witness :
    ∃ body,
      ([Event.initRT, Event.reset, Event.start, Event.step, Event.collectRT,
        Event.evalReset, Event.evalStart, Event.evalStep,
        Event.doneNotify, Event.close] : List Event) =
        Event.initRT :: (body ++ [Event.doneNotify, Event.close]) ∧
      Event.initRT ∉ body ∧ Event.doneNotify ∉ body :=
  C9_startup_and_done (-1) 1 .unset (fun _ => 1) (fun _ => 1) _ (by rfl)

end Maro
